import Mathlib

set_option maxHeartbeats 1000000

/-!
Shallow embedding of the `ocr_benchmark` metrics engine and evaluation
pipeline (`src/ocr_benchmark/metrics.py`, `src/ocr_benchmark/evaluator.py`).

Modelling conventions:
* Python strings are `List Char`; Python floats are exact rationals `ℚ`,
  with an explicit `PyFloat.nan` marker where the code can produce
  `math.nan`; Python dicts are insertion-ordered association lists.
* The two Unicode library calls made by `normalize_text`
  (`unicodedata.normalize("NFKC", ·)` and `str.lower`) are external to the
  repository; they are passed in as function parameters `nfkc` and
  `lowerS` so that the embedded code is exactly the repository's own
  composition of those calls.  Concrete evaluations instantiate both with
  their restriction to ASCII text (identity, resp. ASCII lowercasing),
  which is the true behaviour of the library on ASCII input.
-/

namespace OcrBenchmark

variable {α : Type} [DecidableEq α]

/-- Classic front-recursion Levenshtein distance with unit costs: the
mathematical specification the rolling-row implementation in
`metrics.py` is proved against. -/
def lev : List α → List α → Nat
  | [], ys => ys.length
  | x :: xs, [] => (x :: xs).length
  | x :: xs, y :: ys =>
      min (min (lev xs (y :: ys) + 1) (lev (x :: xs) ys + 1))
        (lev xs ys + (if x = y then 0 else 1))
termination_by xs ys => xs.length + ys.length
decreasing_by all_goals (simp [List.length_cons]; try omega)

/-- Inner loop body of `_levenshtein_distance`: `diag` is
`previous_row[j-1]`, `left` is the value last appended to `current_row`,
the `List Nat` argument is the remaining tail `previous_row[j..]`, and the
`List α` argument the remaining hypothesis items. -/
def levRowAux (x : α) : Nat → Nat → List Nat → List α → List Nat
  | _, _, _, [] => []
  | _, _, [], _ => []
  | diag, left, above :: prev, y :: ys =>
      let c := min (min (left + 1) (above + 1)) (diag + (if x = y then 0 else 1))
      c :: levRowAux x above c prev ys

/-- One iteration of the outer loop of `_levenshtein_distance`: build
`current_row` from `previous_row` for the reference item `x`. -/
def levRowNext (hyp : List α) (row : List Nat) (x : α) : List Nat :=
  match row with
  | [] => []
  | p0 :: prev => (p0 + 1) :: levRowAux x p0 (p0 + 1) prev hyp

/-- Embedding of `_levenshtein_distance` from `metrics.py`: rolling-row dynamic
programming over the hypothesis, one row per reference item, with the
three fast paths, returning `previous_row[-1]`. -/
def _levenshtein_distance (reference hypothesis : List α) : Nat :=
  if reference = hypothesis then 0
  else if reference = [] then hypothesis.length
  else if hypothesis = [] then reference.length
  else
    (reference.foldl (levRowNext hypothesis)
      (List.range (hypothesis.length + 1))).getLastD 0

/-- Row-tail invariant of the dynamic program: entries `lev P (y :: T)` as
the reversed hypothesis prefix `T` grows along the remaining items `ys`;
`P` is the reversed, already processed part of the reference. -/
def rowTail (P : List α) : List α → List α → List Nat
  | _, [] => []
  | T, y :: ys => lev P (y :: T) :: rowTail P (y :: T) ys

/-- The full DP row for processed reversed reference `P`. -/
def fullRow (P hyp : List α) : List Nat :=
  lev P [] :: rowTail P [] hyp

/-! ## Text normalisation (`normalize_text` and the helpers it relies on)

`normalize_text` composes two Unicode library calls
(`unicodedata.normalize("NFKC", ·)`, `str.lower`) with a whitespace-run
collapse (`re.sub(r"\s+", " ", ·)`) and a trim (`str.strip()`).  The two
library calls are taken as parameters; the regex substitution and the trim
are embedded concretely, with `isPySpace` the concrete set of code points
the `re` module's `\s` class (and `str.strip`) treats as whitespace. -/

/-- The Unicode whitespace class used by Python's `\s` regex class and by
`str.strip()`. -/
def isPySpace (c : Char) : Bool :=
  c = ' ' || c = '\t' || c = '\n' || c.toNat = 11 || c.toNat = 12 ||
  c.toNat = 13 || (28 ≤ c.toNat && c.toNat ≤ 31) || c.toNat = 0x85 ||
  c.toNat = 0xa0 || c.toNat = 0x1680 ||
  (0x2000 ≤ c.toNat && c.toNat ≤ 0x200a) || c.toNat = 0x2028 ||
  c.toNat = 0x2029 || c.toNat = 0x202f || c.toNat = 0x205f ||
  c.toNat = 0x3000

/-- Model of `re.sub(r"\s+", " ", s)`: replace each maximal whitespace run by one
ASCII space.  The flag records whether we are inside a whitespace run. -/
def collapseAux : Bool → List Char → List Char
  | _, [] => []
  | inWs, c :: rest =>
    if isPySpace c then
      if inWs then collapseAux true rest
      else ' ' :: collapseAux true rest
    else c :: collapseAux false rest

def collapse_ws (s : List Char) : List Char := collapseAux false s

def pyLstrip (s : List Char) : List Char := s.dropWhile fun c => isPySpace c

def pyRstrip (s : List Char) : List Char :=
  (s.reverse.dropWhile fun c => isPySpace c).reverse

/-- Model of `str.strip()`. -/
def pyStrip (s : List Char) : List Char := pyRstrip (pyLstrip s)

/-- Embedding of `normalize_text` from `metrics.py`; `nfkc` and `lowerS` are the two
Unicode library calls it makes, `lowercase` the keyword argument (the
repository always uses the default `True`). -/
def normalize_text (nfkc lowerS : List Char → List Char) (lowercase : Bool)
    (text : List Char) : List Char :=
  let normalized := nfkc text
  let normalized := if lowercase then lowerS normalized else normalized
  pyStrip (collapse_ws normalized)

/-- Model of `str.split()` with no argument: split on whitespace runs, discarding
empty pieces; `cur` holds the current word reversed. -/
def splitAux : List Char → List Char → List (List Char)
  | cur, [] => if cur = [] then [] else [cur.reverse]
  | cur, c :: rest =>
    if isPySpace c then
      if cur = [] then splitAux [] rest
      else cur.reverse :: splitAux [] rest
    else splitAux (c :: cur) rest

def pySplit (s : List Char) : List (List Char) := splitAux [] s

/-! ## Metrics (`metrics.py`) -/

def _to_char_sequence (text : List Char) : List Char := text

def _to_word_sequence (nfkc lowerS : List Char → List Char)
    (text : List Char) : List (List Char) :=
  pySplit (normalize_text nfkc lowerS true text)

/-- Embedding of `character_error_rate` from `metrics.py`. -/
def character_error_rate (nfkc lowerS : List Char → List Char)
    (reference hypothesis : List Char) : ℚ :=
  let ref_chars := _to_char_sequence (normalize_text nfkc lowerS true reference)
  let hyp_chars := _to_char_sequence (normalize_text nfkc lowerS true hypothesis)
  if ref_chars = [] then (if hyp_chars = [] then 0 else 1)
  else (_levenshtein_distance ref_chars hyp_chars : ℚ) / (ref_chars.length : ℚ)

/-- Embedding of `word_error_rate` from `metrics.py`. -/
def word_error_rate (nfkc lowerS : List Char → List Char)
    (reference hypothesis : List Char) : ℚ :=
  let ref_tokens := _to_word_sequence nfkc lowerS reference
  let hyp_tokens := _to_word_sequence nfkc lowerS hypothesis
  if ref_tokens = [] then (if hyp_tokens = [] then 0 else 1)
  else (_levenshtein_distance ref_tokens hyp_tokens : ℚ) / (ref_tokens.length : ℚ)

/-- Model of `sum((Counter(a) & Counter(b)).values())`: multiset-intersection size,
summing over the distinct tokens of `a` the minimum of the two counts. -/
def counterOverlap (a b : List (List Char)) : Nat :=
  a.dedup.foldl (fun acc t => acc + min (a.count t) (b.count t)) 0

/-- Embedding of `token_precision_recall_f1` from `metrics.py`. -/
def token_precision_recall_f1 (nfkc lowerS : List Char → List Char)
    (reference hypothesis : List Char) : ℚ × ℚ × ℚ :=
  let ref_tokens := _to_word_sequence nfkc lowerS reference
  let hyp_tokens := _to_word_sequence nfkc lowerS hypothesis
  let overlap := counterOverlap ref_tokens hyp_tokens
  let ref_total := ref_tokens.length
  let hyp_total := hyp_tokens.length
  let precision : ℚ := if hyp_total = 0 then 0 else (overlap : ℚ) / (hyp_total : ℚ)
  let recall' : ℚ := if ref_total = 0 then 0 else (overlap : ℚ) / (ref_total : ℚ)
  let f1 : ℚ :=
    if precision + recall' = 0 then 0
    else 2 * precision * recall' / (precision + recall')
  (precision, recall', f1)

/-- Embedding of `exact_match` from `metrics.py`. -/
def exact_match (nfkc lowerS : List Char → List Char)
    (reference hypothesis : List Char) : ℚ :=
  if normalize_text nfkc lowerS true reference =
      normalize_text nfkc lowerS true hypothesis then 1 else 0

/-- Embedding of `compute_metrics` from `metrics.py`: the six metrics as an
insertion-ordered mapping. -/
def compute_metrics (nfkc lowerS : List Char → List Char)
    (reference hypothesis : List Char) : List (String × ℚ) :=
  let cer := character_error_rate nfkc lowerS reference hypothesis
  let wer := word_error_rate nfkc lowerS reference hypothesis
  let prf := token_precision_recall_f1 nfkc lowerS reference hypothesis
  let em := exact_match nfkc lowerS reference hypothesis
  [("character_error_rate", cer),
   ("word_error_rate", wer),
   ("token_precision", prf.1),
   ("token_recall", prf.2.1),
   ("token_f1", prf.2.2),
   ("exact_match", em)]

/-- Embedding of `aggregate_confidences` from `metrics.py`: average ignoring `None`. -/
def aggregate_confidences (confidences : List (Option ℚ)) : Option ℚ :=
  let filtered := confidences.filterMap (fun c => c)
  if filtered = [] then none
  else some (filtered.sum / (filtered.length : ℚ))

/-- A Python float that may be `math.nan`. -/
inductive PyFloat where
  | nan : PyFloat
  | val : ℚ → PyFloat
deriving DecidableEq

/-- Embedding of `safe_mean` from `metrics.py`: mean of a list, `math.nan` when empty. -/
def safe_mean (values : List ℚ) : PyFloat :=
  if values = [] then PyFloat.nan
  else PyFloat.val (values.sum / (values.length : ℚ))

/-! ## Evaluation pipeline (`evaluator.py`)

Wall-clock timing is nondeterministic; the elapsed time the evaluator
would observe for a sample is supplied by the extractor model's
`latencyOf` oracle.  An extraction call that raises is modelled by
`run` returning `Except.error`; the orchestrator's externally visible
actions (invoking `run`, invoking `cleanup`) are recorded in an event
trace so that claims about *which* calls happen can be stated.  The
report `metadata` timestamp is wall-clock I/O and is not modelled. -/

/-- The `DocumentSample` dataclass from `data_loader.py` (the fields the evaluator
reads; the `source` path and its byte/text accessors are file I/O used
only by extractors). -/
structure DocumentSample where
  id : String
  ground_truth : List Char
  metadata : List (String × String)

/-- The `OcrResult` dataclass from `models/base.py`. -/
structure OcrResult where
  text : List Char
  confidence : Option ℚ
  metadata : List (String × String)

/-- A `BaseExtractor` as the evaluator sees it: a name, a fallible `run`,
and the wall-clock latency oracle for the timing measurement. -/
structure Extractor where
  name : String
  run : DocumentSample → Except String OcrResult
  latencyOf : DocumentSample → ℚ

/-- The `SampleEvaluation` dataclass from `evaluator.py`. -/
structure SampleEvaluation where
  sample_id : String
  prediction : List Char
  ground_truth : List Char
  metrics : List (String × ℚ)
  confidence : Option ℚ
  latency_seconds : ℚ
  extractor_metadata : List (String × String)

/-- The `MethodEvaluation` dataclass from `evaluator.py`. -/
structure MethodEvaluation where
  method_name : String
  aggregated_metrics : List (String × PyFloat)
  average_confidence : Option ℚ
  average_latency_seconds : PyFloat
  samples : List SampleEvaluation

/-- The `BenchmarkReport` dataclass from `evaluator.py` (run metadata omitted: it only
holds a wall-clock timestamp). -/
structure BenchmarkReport where
  dataset_size : Nat
  methods : List (String × MethodEvaluation)

/-- Externally visible calls the orchestrator makes on extractors. -/
inductive RunEvent where
  | ranSample (method : String) (sample_id : String)
  | cleanup (method : String)
deriving DecidableEq

/-- Model of `metric_accumulator.setdefault(key, []).append(value)`: append to the
entry of `k`, creating it at the end on first insertion. -/
def accInsert (acc : List (String × List ℚ)) (k : String) (v : ℚ) :
    List (String × List ℚ) :=
  match acc with
  | [] => [(k, [v])]
  | (k', vs) :: rest =>
      if k' = k then (k', vs ++ [v]) :: rest
      else (k', vs) :: accInsert rest k v

def accAddMetrics (acc : List (String × List ℚ)) (metrics : List (String × ℚ)) :
    List (String × List ℚ) :=
  metrics.foldl (fun a kv => accInsert a kv.1 kv.2) acc

/-- Loop state of `BenchmarkRunner.evaluate_method`. -/
structure MAcc where
  sample_reports : List SampleEvaluation
  metric_accumulator : List (String × List ℚ)
  confidences : List (Option ℚ)
  latencies : List ℚ

/-- The sample loop of `BenchmarkRunner.evaluate_method`: first component
is the trace of extractor invocations, second the resulting state, or the
uncaught failure of the first failing `run` call. -/
def methodGo (nfkc lowerS : List Char → List Char) (ex : Extractor) :
    MAcc → List DocumentSample → List RunEvent × Except String MAcc
  | st, [] => ([], .ok st)
  | st, s :: rest =>
    match ex.run s with
    | .error e => ([.ranSample ex.name s.id], .error e)
    | .ok result =>
      let latency := ex.latencyOf s
      let metrics := compute_metrics nfkc lowerS s.ground_truth result.text
      let st' : MAcc :=
        { sample_reports := st.sample_reports ++
            [{ sample_id := s.id
               prediction := result.text
               ground_truth := s.ground_truth
               metrics := metrics
               confidence := result.confidence
               latency_seconds := latency
               extractor_metadata := result.metadata }]
          metric_accumulator := accAddMetrics st.metric_accumulator metrics
          confidences := st.confidences ++ [result.confidence]
          latencies := st.latencies ++ [latency] }
      let next := methodGo nfkc lowerS ex st' rest
      (.ranSample ex.name s.id :: next.1, next.2)

/-- Embedding of `BenchmarkRunner.evaluate_method`. -/
def evaluate_method (nfkc lowerS : List Char → List Char) (ex : Extractor)
    (samples : List DocumentSample) :
    List RunEvent × Except String MethodEvaluation :=
  let r := methodGo nfkc lowerS ex ⟨[], [], [], []⟩ samples
  (r.1, r.2.map fun st =>
    { method_name := ex.name
      aggregated_metrics :=
        st.metric_accumulator.map fun kv => (kv.1, safe_mean kv.2)
      average_confidence := aggregate_confidences st.confidences
      average_latency_seconds := safe_mean st.latencies
      samples := st.sample_reports })

/-- Model of `methods[extractor.name] = ...` on a Python dict: overwrite in place
when the key exists, append otherwise. -/
def dictInsert (d : List (String × MethodEvaluation)) (k : String)
    (v : MethodEvaluation) : List (String × MethodEvaluation) :=
  match d with
  | [] => [(k, v)]
  | (k', v') :: rest =>
      if k' = k then (k', v) :: rest
      else (k', v') :: dictInsert rest k v

/-- The extractor loop of `BenchmarkRunner.run`: evaluate a method, then
call `cleanup` — with no error handling, so a failing evaluation skips
`cleanup` and aborts the whole loop. -/
def runGo (nfkc lowerS : List Char → List Char)
    (samples : List DocumentSample) :
    List (String × MethodEvaluation) → List Extractor →
    List RunEvent × Except String (List (String × MethodEvaluation))
  | methods, [] => ([], .ok methods)
  | methods, ex :: rest =>
    let r := evaluate_method nfkc lowerS ex samples
    match r.2 with
    | .error e => (r.1, .error e)
    | .ok m =>
      let next := runGo nfkc lowerS samples (dictInsert methods ex.name m) rest
      (r.1 ++ RunEvent.cleanup ex.name :: next.1, next.2)

/-- Embedding of `BenchmarkRunner.run`. -/
def runBenchmark (nfkc lowerS : List Char → List Char)
    (samples : List DocumentSample) (extractors : List Extractor) :
    List RunEvent × Except String BenchmarkReport :=
  let r := runGo nfkc lowerS samples [] extractors
  (r.1, r.2.map fun methods =>
    { dataset_size := samples.length, methods := methods })

/-! ## Whitespace canonicalisation, towards idempotence of `normalize_text` -/

/-- Adjacent characters are not both whitespace. -/
def wsRel (a b : Char) : Prop := ¬(isPySpace a = true ∧ isPySpace b = true)

/-- No two adjacent whitespace characters anywhere in the list. -/
def wsIsolated (l : List Char) : Prop := List.Chain' wsRel l

/-- Every whitespace character in the list is an ASCII space. -/
def wsCanonChars (l : List Char) : Prop :=
  ∀ c ∈ l, isPySpace c = true → c = ' '

def headNotSpace : List Char → Prop
  | [] => True
  | c :: _ => isPySpace c = false

def lastNotSpace (l : List Char) : Prop := headNotSpace l.reverse

/-! ## Concrete Unicode library instances for ASCII inputs -/

/-- NFKC normalisation is the identity on ASCII text; concrete
evaluations use ASCII inputs, where this is the exact library behaviour. -/
def nfkcAscii : List Char → List Char := id

/-- Model of `str.lower` on ASCII text: lowercase the ASCII letters. -/
def asciiLower : List Char → List Char := List.map Char.toLower

/-- The confidence the evaluator collects for an extraction call; `none`
when the call fails (in which case no record is produced at all). -/
def confOf : Except String OcrResult → Option ℚ
  | Except.ok r => r.confidence
  | Except.error _ => none

/-- Shape invariant of one `MethodEvaluation` (claim C6): exactly one
`SampleEvaluation` per input sample, in input order. -/
def methodInv (samples : List DocumentSample) (m : MethodEvaluation) : Prop :=
  m.samples.length = samples.length ∧
  m.samples.map SampleEvaluation.sample_id = samples.map DocumentSample.id

/-! Concrete fixtures for witness and counterexample theorems. -/

def sampleA : DocumentSample :=
  { id := "a", ground_truth := "cat".toList, metadata := [] }

def sampleB : DocumentSample :=
  { id := "b", ground_truth := "dog".toList, metadata := [] }

def sampleC : DocumentSample :=
  { id := "c", ground_truth := "bird".toList, metadata := [] }

/-- An extractor that succeeds on every sample and reports a confidence
only for sample `"a"`. -/
def exOk : Extractor :=
  { name := "ok"
    run := fun s => Except.ok
      { text := s.ground_truth
        confidence := if s.id = "a" then some (1/2 : ℚ) else none
        metadata := [] }
    latencyOf := fun _ => 1 }

/-- An extractor that fails on sample `"b"` and succeeds elsewhere. -/
def exMixed : Extractor :=
  { name := "mixed"
    run := fun s =>
      if s.id = "b" then Except.error "boom"
      else Except.ok
        { text := s.ground_truth, confidence := none, metadata := [] }
    latencyOf := fun _ => 1 }

/-- An extractor whose `run` always fails. -/
def exBad : Extractor :=
  { name := "bad"
    run := fun _ => Except.error "boom"
    latencyOf := fun _ => 1 }

theorem lev_nil_left (ys : List α) : lev [] ys = ys.length := by
  cases ys <;> simp [lev]

theorem lev_nil_right (xs : List α) : lev xs [] = xs.length := by
  cases xs <;> simp [lev]

theorem lev_cons_cons (x y : α) (xs ys : List α) :
    lev (x :: xs) (y :: ys) =
      min (min (lev xs (y :: ys) + 1) (lev (x :: xs) ys + 1))
        (lev xs ys + (if x = y then 0 else 1)) := by
  simp [lev]

theorem lev_self (xs : List α) : lev xs xs = 0 := by
  induction xs with
  | nil => simp [lev]
  | cons x xs ih =>
      rw [lev_cons_cons, if_pos rfl, ih]
      omega

theorem lev_comm (a b : List α) : lev a b = lev b a := by
  induction a generalizing b with
  | nil => rw [lev_nil_left, lev_nil_right]
  | cons x xs ih =>
      induction b with
      | nil => rw [lev_nil_left, lev_nil_right]
      | cons y ys ih2 =>
          rw [lev_cons_cons, lev_cons_cons, ih (y :: ys), ih2, ih ys]
          have hc : (if x = y then 0 else 1) = (if y = x then 0 else 1) := by
            by_cases h : x = y
            · simp [h]
            · rw [if_neg h, if_neg (Ne.symm h)]
          rw [hc]
          omega

theorem levRowAux_spec (x : α) (ys : List α) :
    ∀ (T P : List α),
      levRowAux x (lev P T) (lev (x :: P) T) (rowTail P T ys) ys =
        rowTail (x :: P) T ys := by
  induction ys with
  | nil => intro T P; rfl
  | cons y ys ih =>
      intro T P
      have hc : min (min (lev (x :: P) T + 1) (lev P (y :: T) + 1))
          (lev P T + (if x = y then 0 else 1)) = lev (x :: P) (y :: T) := by
        rw [lev_cons_cons, Nat.min_comm (lev P (y :: T) + 1) (lev (x :: P) T + 1)]
      show (min (min (lev (x :: P) T + 1) (lev P (y :: T) + 1))
            (lev P T + (if x = y then 0 else 1))) ::
          levRowAux x (lev P (y :: T))
            (min (min (lev (x :: P) T + 1) (lev P (y :: T) + 1))
              (lev P T + (if x = y then 0 else 1)))
            (rowTail P (y :: T) ys) ys =
        lev (x :: P) (y :: T) :: rowTail (x :: P) (y :: T) ys
      rw [hc, ih (y :: T) P]

theorem levRowNext_spec (x : α) (hyp P : List α) :
    levRowNext hyp (fullRow P hyp) x = fullRow (x :: P) hyp := by
  have h1 : lev (x :: P) [] = lev P [] + 1 := by
    simp [lev_nil_right]
  have h2 := levRowAux_spec x hyp ([] : List α) P
  rw [h1] at h2
  show (lev P [] + 1) ::
      levRowAux x (lev P []) (lev P [] + 1) (rowTail P [] hyp) hyp =
    lev (x :: P) [] :: rowTail (x :: P) [] hyp
  rw [h1, h2]

theorem foldl_levRowNext (hyp : List α) :
    ∀ (ref P : List α),
      List.foldl (levRowNext hyp) (fullRow P hyp) ref =
        fullRow (ref.reverse ++ P) hyp := by
  intro ref
  induction ref with
  | nil => intro P; simp
  | cons x ref ih =>
      intro P
      rw [List.foldl_cons, levRowNext_spec, ih (x :: P)]
      simp

theorem rowTail_nil_left (ys : List α) :
    ∀ T : List α, rowTail [] T ys = List.range' (T.length + 1) ys.length := by
  induction ys with
  | nil => intro T; rfl
  | cons y ys ih =>
      intro T
      have hl : (y :: ys).length = ys.length + 1 := rfl
      rw [rowTail, hl, List.range'_succ, lev_nil_left, ih (y :: T)]
      rfl

theorem range_eq_fullRow (hyp : List α) :
    List.range (hyp.length + 1) = fullRow ([] : List α) hyp := by
  show List.range (hyp.length + 1) = lev [] [] :: rowTail [] [] hyp
  rw [lev_nil_left, rowTail_nil_left hyp ([] : List α), List.range_eq_range',
    List.range'_succ]
  rfl

theorem getLastD_rowTail (P : List α) (ys : List α) :
    ∀ (T : List α) (d : Nat),
      (lev P T :: rowTail P T ys).getLastD d = lev P (ys.reverse ++ T) := by
  induction ys with
  | nil => intro T d; rfl
  | cons y ys ih =>
      intro T d
      show (lev P T :: lev P (y :: T) :: rowTail P (y :: T) ys).getLastD d =
        lev P ((y :: ys).reverse ++ T)
      rw [List.getLastD_cons, ih (y :: T) (lev P T)]
      simp

/-- The rolling-row implementation computes the classic Levenshtein
distance of the reversed inputs. -/
theorem _levenshtein_distance_eq_lev (a b : List α) :
    _levenshtein_distance a b = lev a.reverse b.reverse := by
  unfold _levenshtein_distance
  by_cases hab : a = b
  · rw [if_pos hab, hab, lev_self]
  · rw [if_neg hab]
    by_cases ha : a = []
    · rw [if_pos ha, ha, List.reverse_nil, lev_nil_left, List.length_reverse]
    · rw [if_neg ha]
      by_cases hb : b = []
      · rw [if_pos hb, hb, List.reverse_nil, lev_nil_right, List.length_reverse]
      · rw [if_neg hb]
        rw [range_eq_fullRow b, foldl_levRowNext b a ([] : List α),
          List.append_nil]
        show (lev a.reverse [] :: rowTail a.reverse [] b).getLastD 0 =
          lev a.reverse b.reverse
        rw [getLastD_rowTail a.reverse b ([] : List α) 0, List.append_nil]

theorem collapseAux_headNotSpace (s : List Char) :
    headNotSpace (collapseAux true s) := by
  induction s with
  | nil => trivial
  | cons c rest ih =>
      cases h : isPySpace c with
      | true => simpa [collapseAux, h] using ih
      | false =>
          simp only [collapseAux, h, Bool.false_eq_true, if_false]
          exact h

theorem collapseAux_wsCanon (s : List Char) :
    ∀ b, wsCanonChars (collapseAux b s) := by
  induction s with
  | nil => intro b c hc; simp [collapseAux] at hc
  | cons c rest ih =>
      intro b
      cases h : isPySpace c with
      | true =>
          cases b with
          | true => simpa [collapseAux, h] using ih true
          | false =>
              intro d hd hsp
              simp only [collapseAux, h, if_true] at hd
              rcases List.mem_cons.mp hd with h1 | h1
              · exact h1
              · exact ih true d h1 hsp
      | false =>
          intro d hd hsp
          simp only [collapseAux, h, Bool.false_eq_true, if_false] at hd
          rcases List.mem_cons.mp hd with h1 | h1
          · rw [h1, h] at hsp; exact absurd hsp (by simp)
          · exact ih false d h1 hsp

theorem headNotSpace_wsRel {c : Char} {l : List Char} (h : headNotSpace l) :
    ∀ y ∈ l.head?, wsRel c y := by
  cases l with
  | nil => intro y hy; simp at hy
  | cons d rest =>
      intro y hy
      have hd : d = y := by simpa using hy
      subst hd
      have h2 : isPySpace d = false := h
      exact fun hp => by rw [h2] at hp; exact absurd hp.2 (by simp)

theorem wsRel_of_not_space_left {c d : Char} (h : isPySpace c = false) :
    wsRel c d := fun hp => by rw [h] at hp; exact absurd hp.1 (by simp)

theorem collapseAux_wsIsolated (s : List Char) :
    ∀ b, wsIsolated (collapseAux b s) := by
  induction s with
  | nil => intro b; simp [collapseAux, wsIsolated]
  | cons c rest ih =>
      intro b
      cases h : isPySpace c with
      | true =>
          cases b with
          | true => simpa [collapseAux, h] using ih true
          | false =>
              simp only [collapseAux, h, if_true]
              exact List.chain'_cons'.mpr
                ⟨headNotSpace_wsRel (collapseAux_headNotSpace rest), ih true⟩
      | false =>
          simp only [collapseAux, h, Bool.false_eq_true, if_false]
          exact List.chain'_cons'.mpr
            ⟨fun y _ => wsRel_of_not_space_left h, ih false⟩

theorem headNotSpace_prefix_mono {l₁ l₂ : List Char} (h : l₁ <+: l₂)
    (h2 : headNotSpace l₂) : headNotSpace l₁ := by
  obtain ⟨t, rfl⟩ := h
  cases l₁ with
  | nil => trivial
  | cons c rest => exact h2

theorem headNotSpace_dropWhile (s : List Char) :
    headNotSpace (s.dropWhile fun c => isPySpace c) := by
  induction s with
  | nil => trivial
  | cons c rest ih =>
      cases h : isPySpace c with
      | true => simpa [List.dropWhile, h] using ih
      | false =>
          simp only [List.dropWhile, h]
          exact h

theorem pyLstrip_headNotSpace (s : List Char) : headNotSpace (pyLstrip s) :=
  headNotSpace_dropWhile s

theorem pyRstrip_eq_reverse (s : List Char) :
    pyRstrip s = (pyLstrip s.reverse).reverse := rfl

theorem pyRstrip_lastNotSpace (s : List Char) : lastNotSpace (pyRstrip s) := by
  rw [lastNotSpace, pyRstrip_eq_reverse, List.reverse_reverse]
  exact pyLstrip_headNotSpace s.reverse

theorem pyLstrip_suffix (s : List Char) : pyLstrip s <:+ s :=
  List.dropWhile_suffix _

theorem pyRstrip_prefix_self (s : List Char) : pyRstrip s <+: s := by
  rw [pyRstrip_eq_reverse, ← List.reverse_suffix, List.reverse_reverse]
  exact pyLstrip_suffix s.reverse

theorem pyRstrip_headNotSpace {s : List Char} (h : headNotSpace s) :
    headNotSpace (pyRstrip s) :=
  headNotSpace_prefix_mono (pyRstrip_prefix_self s) h

theorem pyStrip_headNotSpace (s : List Char) : headNotSpace (pyStrip s) :=
  pyRstrip_headNotSpace (pyLstrip_headNotSpace s)

theorem pyStrip_lastNotSpace (s : List Char) : lastNotSpace (pyStrip s) :=
  pyRstrip_lastNotSpace (pyLstrip s)

theorem wsCanonChars_of_sublist {l₁ l₂ : List Char} (h : List.Sublist l₁ l₂)
    (h2 : wsCanonChars l₂) : wsCanonChars l₁ :=
  fun c hc hsp => h2 c (h.subset hc) hsp

theorem pyStrip_wsCanon {s : List Char} (h : wsCanonChars s) :
    wsCanonChars (pyStrip s) :=
  wsCanonChars_of_sublist
    ((pyRstrip_prefix_self (pyLstrip s)).sublist.trans (pyLstrip_suffix s).sublist) h

theorem pyStrip_wsIsolated {s : List Char} (h : wsIsolated s) :
    wsIsolated (pyStrip s) :=
  List.Chain'.prefix
    (List.Chain'.suffix h (pyLstrip_suffix s)) (pyRstrip_prefix_self _)

theorem collapseAux_fix (s : List Char) :
    wsCanonChars s → wsIsolated s →
      collapseAux false s = s ∧ (headNotSpace s → collapseAux true s = s) := by
  induction s with
  | nil => intro _ _; exact ⟨rfl, fun _ => rfl⟩
  | cons c rest ih =>
      intro hcanon hiso
      have hcanon' : wsCanonChars rest :=
        fun d hd hsp => hcanon d (List.mem_cons_of_mem c hd) hsp
      have hiso' : wsIsolated rest := List.Chain'.tail hiso
      cases h : isPySpace c with
      | true =>
          have hcsp : c = ' ' := hcanon c (List.mem_cons_self c rest) h
          have hrest : headNotSpace rest := by
            cases rest with
            | nil => trivial
            | cons d rest' =>
                have hrel : wsRel c d := (List.chain'_cons'.mp hiso).1 d rfl
                show isPySpace d = false
                cases hd : isPySpace d with
                | false => rfl
                | true => exact absurd ⟨h, hd⟩ hrel
          refine ⟨?_, fun hh => ?_⟩
          · have h2 := (ih hcanon' hiso').2 hrest
            simp only [collapseAux, h, if_true, Bool.false_eq_true, if_false]
            rw [h2, hcsp]
          · exact absurd h (by rw [show isPySpace c = false from hh]; simp)
      | false =>
          have hfix : collapseAux false rest = rest := (ih hcanon' hiso').1
          refine ⟨?_, fun _ => ?_⟩ <;>
            simp [collapseAux, h, hfix]

theorem lstrip_fix {s : List Char} (h : headNotSpace s) : pyLstrip s = s := by
  cases s with
  | nil => rfl
  | cons c rest =>
      have h2 : isPySpace c = false := h
      simp [pyLstrip, List.dropWhile, h2]

theorem rstrip_fix {s : List Char} (h : lastNotSpace s) : pyRstrip s = s := by
  rw [pyRstrip_eq_reverse, lstrip_fix h, List.reverse_reverse]

/-- The collapse-then-strip composition performed by `normalize_text` is
idempotent. -/
theorem strip_collapse_idem (s : List Char) :
    pyStrip (collapse_ws (pyStrip (collapse_ws s))) = pyStrip (collapse_ws s) := by
  set y := pyStrip (collapse_ws s) with hy
  have hcanon : wsCanonChars y := pyStrip_wsCanon (collapseAux_wsCanon s false)
  have hiso : wsIsolated y := pyStrip_wsIsolated (collapseAux_wsIsolated s false)
  have hcol : collapse_ws y = y := (collapseAux_fix y hcanon hiso).1
  have hhead : headNotSpace y := pyStrip_headNotSpace (collapse_ws s)
  have hlast : lastNotSpace y := pyStrip_lastNotSpace (collapse_ws s)
  rw [hcol]
  show pyRstrip (pyLstrip y) = y
  rw [lstrip_fix hhead, rstrip_fix hlast]

/-! ## Claim theorems: metrics -/

/-- C2: whenever the normalised reference is empty,
`character_error_rate` is `0.0` if the normalised hypothesis is also
empty and `1.0` otherwise. -/
theorem C2_cer_empty_reference (nfkc lowerS : List Char → List Char)
    (reference hypothesis : List Char)
    (h : normalize_text nfkc lowerS true reference = []) :
    character_error_rate nfkc lowerS reference hypothesis =
      if normalize_text nfkc lowerS true hypothesis = [] then 0 else 1 := by
  simp only [character_error_rate, _to_char_sequence, h, if_true]

/-- Witness for C2 at the two inputs named by the claim:
`character_error_rate("", "") = 0.0` and `character_error_rate("", "x") = 1.0`. -/
theorem C2_cer_empty_reference_witness :
    character_error_rate id id "".toList "".toList = 0 ∧
      character_error_rate id id "".toList "x".toList = 1 := by
  refine ⟨?_, ?_⟩
  · rw [C2_cer_empty_reference id id "".toList "".toList rfl]; rfl
  · rw [C2_cer_empty_reference id id "".toList "x".toList rfl]; rfl

/-- C3: the edit-distance engine is symmetric under swapping its two
arguments. -/
theorem C3_levenshtein_symm {α : Type} [DecidableEq α] (a b : List α) :
    _levenshtein_distance a b = _levenshtein_distance b a := by
  rw [_levenshtein_distance_eq_lev, _levenshtein_distance_eq_lev, lev_comm]

/-- C4: `normalize_text` (with the default lowercasing) is idempotent and
total.  Totality holds by construction (the embedding is a total
function); idempotence is proved for every input string from four facts
about the external Unicode library calls, each true of the real library:
lowercasing is idempotent, lowercasing NFKC-normal text leaves it
NFKC-normal, and NFKC-normality resp. lowercased-ness are preserved by
the whitespace collapse-and-trim.  The repository's own contribution —
the collapse and trim — is proved idempotent unconditionally
(`strip_collapse_idem`). -/
theorem C4_normalize_idempotent (nfkc lowerS : List Char → List Char)
    (hLowerIdem : ∀ s, lowerS (lowerS s) = lowerS s)
    (hNfkcLower : ∀ s, nfkc (lowerS (nfkc s)) = lowerS (nfkc s))
    (hNfkcStrip : ∀ s, nfkc s = s →
      nfkc (pyStrip (collapse_ws s)) = pyStrip (collapse_ws s))
    (hLowerStrip : ∀ s, lowerS s = s →
      lowerS (pyStrip (collapse_ws s)) = pyStrip (collapse_ws s))
    (x : List Char) :
    normalize_text nfkc lowerS true (normalize_text nfkc lowerS true x) =
      normalize_text nfkc lowerS true x := by
  have hz : nfkc (normalize_text nfkc lowerS true x) =
      normalize_text nfkc lowerS true x :=
    hNfkcStrip (lowerS (nfkc x)) (hNfkcLower x)
  have hl : lowerS (normalize_text nfkc lowerS true x) =
      normalize_text nfkc lowerS true x :=
    hLowerStrip (lowerS (nfkc x)) (hLowerIdem (nfkc x))
  calc normalize_text nfkc lowerS true (normalize_text nfkc lowerS true x)
      = pyStrip (collapse_ws (lowerS (nfkc (normalize_text nfkc lowerS true x)))) :=
        rfl
    _ = pyStrip (collapse_ws (normalize_text nfkc lowerS true x)) := by
        rw [hz, hl]
    _ = normalize_text nfkc lowerS true x := strip_collapse_idem (lowerS (nfkc x))

/-- Witness for C4 on a concrete string with redundant whitespace. -/
theorem C4_normalize_idempotent_witness :
    normalize_text id id true
        (normalize_text id id true "  a   b \t c  ".toList) =
      normalize_text id id true "  a   b \t c  ".toList :=
  C4_normalize_idempotent id id (fun _ => rfl) (fun _ => rfl)
    (fun _ _ => rfl) (fun _ _ => rfl) "  a   b \t c  ".toList

/-- C5: Scenario A — reference `"cat"`, hypothesis `"cot"`: character
distance 1 hence CER = 1/3, word distance 1 hence WER = 1, token overlap
0 hence precision = recall = f1 = 0, and exact_match = 0. -/
theorem C5_scenario_A :
    _levenshtein_distance (normalize_text nfkcAscii asciiLower true "cat".toList)
        (normalize_text nfkcAscii asciiLower true "cot".toList) = 1 ∧
    _levenshtein_distance (_to_word_sequence nfkcAscii asciiLower "cat".toList)
        (_to_word_sequence nfkcAscii asciiLower "cot".toList) = 1 ∧
    counterOverlap (_to_word_sequence nfkcAscii asciiLower "cat".toList)
        (_to_word_sequence nfkcAscii asciiLower "cot".toList) = 0 ∧
    compute_metrics nfkcAscii asciiLower "cat".toList "cot".toList =
      [("character_error_rate", (1 : ℚ)/3),
       ("word_error_rate", 1),
       ("token_precision", 0),
       ("token_recall", 0),
       ("token_f1", 0),
       ("exact_match", 0)] := by
  have hr : normalize_text nfkcAscii asciiLower true "cat".toList =
      ['c', 'a', 't'] := by rfl
  have hh : normalize_text nfkcAscii asciiLower true "cot".toList =
      ['c', 'o', 't'] := by rfl
  have hd : _levenshtein_distance ['c', 'a', 't'] ['c', 'o', 't'] = 1 := by rfl
  have hw : _to_word_sequence nfkcAscii asciiLower "cat".toList =
      [['c', 'a', 't']] := by rfl
  have hw2 : _to_word_sequence nfkcAscii asciiLower "cot".toList =
      [['c', 'o', 't']] := by rfl
  have hwd : _levenshtein_distance [['c', 'a', 't']] [['c', 'o', 't']] = 1 := by
    rfl
  have hov : counterOverlap [['c', 'a', 't']] [['c', 'o', 't']] = 0 := by rfl
  refine ⟨?_, ?_, ?_, ?_⟩
  · rw [hr, hh]; exact hd
  · rw [hw, hw2]; exact hwd
  · rw [hw, hw2]; exact hov
  · simp only [compute_metrics, character_error_rate, word_error_rate,
      token_precision_recall_f1, exact_match, _to_char_sequence,
      hr, hh, hw, hw2, hd, hwd, hov]
    norm_num
    decide

/-- C10: `character_error_rate` is not bounded above by `1.0`: with
reference `"a"` and hypothesis `"a b c"` the normalised reference is
non-empty and the returned value is 4, strictly greater than 1, since the
distance is divided by the reference length with no clamping. -/
theorem C10_cer_exceeds_one :
    normalize_text nfkcAscii asciiLower true "a".toList ≠ [] ∧
    character_error_rate nfkcAscii asciiLower "a".toList "a b c".toList = 4 ∧
    (1 : ℚ) < character_error_rate nfkcAscii asciiLower "a".toList "a b c".toList := by
  have hn : normalize_text nfkcAscii asciiLower true "a".toList = ['a'] := by rfl
  have hh : normalize_text nfkcAscii asciiLower true "a b c".toList =
      ['a', ' ', 'b', ' ', 'c'] := by rfl
  have hd : _levenshtein_distance ['a'] ['a', ' ', 'b', ' ', 'c'] = 4 := by rfl
  have hc : character_error_rate nfkcAscii asciiLower "a".toList "a b c".toList =
      4 := by
    simp only [character_error_rate, _to_char_sequence, hn, hh, hd]
    norm_num
  refine ⟨?_, hc, ?_⟩
  · rw [hn]; simp
  · rw [hc]; norm_num

/-! ## Evaluator lemmas -/

theorem methodGo_ok (nf lo : List Char → List Char) (ex : Extractor) :
    ∀ (samples : List DocumentSample) (st : MAcc),
      (∀ s ∈ samples, (ex.run s).isOk = true) →
      ∃ st', methodGo nf lo ex st samples =
          (samples.map fun s => RunEvent.ranSample ex.name s.id, Except.ok st') ∧
        st'.sample_reports.map SampleEvaluation.sample_id =
          st.sample_reports.map SampleEvaluation.sample_id ++
            samples.map DocumentSample.id ∧
        st'.confidences =
          st.confidences ++ samples.map (fun s => confOf (ex.run s)) ∧
        st'.latencies = st.latencies ++ samples.map ex.latencyOf := by
  intro samples
  induction samples with
  | nil =>
      intro st _
      exact ⟨st, by simp [methodGo], by simp, by simp, by simp⟩
  | cons s rest ih =>
      intro st h
      have hs : (ex.run s).isOk = true := h s (List.mem_cons_self s rest)
      cases hr : ex.run s with
      | error e => rw [hr] at hs; simp [Except.isOk, Except.toBool] at hs
      | ok result =>
          obtain ⟨st', hgo, hids, hconf, hlat⟩ :=
            ih { sample_reports := st.sample_reports ++
                   [{ sample_id := s.id
                      prediction := result.text
                      ground_truth := s.ground_truth
                      metrics := compute_metrics nf lo s.ground_truth result.text
                      confidence := result.confidence
                      latency_seconds := ex.latencyOf s
                      extractor_metadata := result.metadata }]
                 metric_accumulator := accAddMetrics st.metric_accumulator
                   (compute_metrics nf lo s.ground_truth result.text)
                 confidences := st.confidences ++ [result.confidence]
                 latencies := st.latencies ++ [ex.latencyOf s] }
              (fun s' hs' => h s' (List.mem_cons_of_mem s hs'))
          refine ⟨st', ?_, ?_, ?_, ?_⟩
          · simp only [methodGo, hr, hgo, List.map_cons]
          · rw [hids]; simp
          · rw [hconf]; simp [confOf, hr]
          · rw [hlat]; simp

theorem evaluate_method_ok (nf lo : List Char → List Char) (ex : Extractor)
    (samples : List DocumentSample)
    (h : ∀ s ∈ samples, (ex.run s).isOk = true) :
    ∃ m, evaluate_method nf lo ex samples =
        (samples.map fun s => RunEvent.ranSample ex.name s.id, Except.ok m) ∧
      m.samples.map SampleEvaluation.sample_id = samples.map DocumentSample.id ∧
      m.samples.length = samples.length ∧
      m.average_confidence =
        aggregate_confidences (samples.map fun s => confOf (ex.run s)) ∧
      m.average_latency_seconds = safe_mean (samples.map ex.latencyOf) := by
  obtain ⟨st', hgo, hids, hconf, hlat⟩ :=
    methodGo_ok nf lo ex samples ⟨[], [], [], []⟩ h
  refine ⟨{ method_name := ex.name
            aggregated_metrics :=
              st'.metric_accumulator.map fun kv => (kv.1, safe_mean kv.2)
            average_confidence := aggregate_confidences st'.confidences
            average_latency_seconds := safe_mean st'.latencies
            samples := st'.sample_reports }, ?_, ?_, ?_, ?_, ?_⟩
  · simp only [evaluate_method, hgo]
    rfl
  · simpa using hids
  · have := congrArg List.length hids
    simpa using this
  · show aggregate_confidences st'.confidences = _
    rw [hconf]
    simp
  · show safe_mean st'.latencies = _
    rw [hlat]
    simp

theorem methodGo_error (nf lo : List Char → List Char) (ex : Extractor)
    (sbad : DocumentSample) (e : String)
    (hbad : ex.run sbad = Except.error e) :
    ∀ (pre : List DocumentSample), (∀ s ∈ pre, (ex.run s).isOk = true) →
      ∀ (post : List DocumentSample) (st : MAcc),
        methodGo nf lo ex st (pre ++ sbad :: post) =
          ((pre ++ [sbad]).map fun s => RunEvent.ranSample ex.name s.id,
            Except.error e) := by
  intro pre
  induction pre with
  | nil =>
      intro _ post st
      simp [methodGo, hbad]
  | cons p pre ih =>
      intro h post st
      have hp : (ex.run p).isOk = true := h p (List.mem_cons_self p pre)
      cases hr : ex.run p with
      | error e2 => rw [hr] at hp; simp [Except.isOk, Except.toBool] at hp
      | ok result =>
          simp only [List.cons_append, methodGo, hr, List.append_eq]
          rw [ih (fun s' hs' => h s' (List.mem_cons_of_mem p hs')) post _]
          simp

theorem dictInsert_forall (d : List (String × MethodEvaluation)) (k : String)
    (v : MethodEvaluation) {Q : MethodEvaluation → Prop}
    (hd : ∀ p ∈ d, Q p.2) (hv : Q v) :
    ∀ p ∈ dictInsert d k v, Q p.2 := by
  induction d with
  | nil =>
      intro p hp
      simp only [dictInsert, List.mem_singleton] at hp
      rw [hp]
      exact hv
  | cons q d ih =>
      rcases q with ⟨k', v'⟩
      intro p hp
      simp only [dictInsert] at hp
      by_cases hk : k' = k
      · rw [if_pos hk] at hp
        rcases List.mem_cons.mp hp with h1 | h1
        · rw [h1]; exact hv
        · exact hd p (List.mem_cons_of_mem _ h1)
      · rw [if_neg hk] at hp
        rcases List.mem_cons.mp hp with h1 | h1
        · rw [h1]; exact hd (k', v') (List.mem_cons_self _ _)
        · exact ih (fun p' hp' => hd p' (List.mem_cons_of_mem _ hp')) p h1

theorem runGo_ok (nf lo : List Char → List Char)
    (samples : List DocumentSample) :
    ∀ (extractors : List Extractor)
      (methods : List (String × MethodEvaluation)),
      (∀ ex ∈ extractors, ∀ s ∈ samples, (ex.run s).isOk = true) →
      (∀ p ∈ methods, methodInv samples p.2) →
      ∃ ms, runGo nf lo samples methods extractors =
          (extractors.flatMap fun ex =>
            (samples.map fun s => RunEvent.ranSample ex.name s.id) ++
              [RunEvent.cleanup ex.name], Except.ok ms) ∧
        ∀ p ∈ ms, methodInv samples p.2 := by
  intro extractors
  induction extractors with
  | nil =>
      intro methods _ hm
      exact ⟨methods, by simp [runGo], hm⟩
  | cons ex rest ih =>
      intro methods h hm
      obtain ⟨m, hev, hids, hlen, _, _⟩ :=
        evaluate_method_ok nf lo ex samples (h ex (List.mem_cons_self ex rest))
      obtain ⟨ms, hrun, hms⟩ :=
        ih (dictInsert methods ex.name m)
          (fun ex' hex' => h ex' (List.mem_cons_of_mem ex hex'))
          (dictInsert_forall methods ex.name m hm ⟨hlen, hids⟩)
      refine ⟨ms, ?_, hms⟩
      simp only [runGo, hev, hrun, List.flatMap_cons]
      simp

theorem aggregate_confidences_none_iff (l : List (Option ℚ)) :
    aggregate_confidences l = none ↔ ∀ c ∈ l, c = none := by
  simp only [aggregate_confidences]
  constructor
  · intro h
    by_cases hf : l.filterMap (fun c => c) = []
    · exact fun c hc => (List.filterMap_eq_nil_iff.mp hf) c hc
    · rw [if_neg hf] at h
      exact absurd h (by simp)
  · intro h
    rw [if_pos (List.filterMap_eq_nil_iff.mpr h)]

theorem aggregate_confidences_mean (l : List (Option ℚ))
    (h : l.filterMap (fun c => c) ≠ []) :
    aggregate_confidences l =
      some ((l.filterMap (fun c => c)).sum /
        ((l.filterMap (fun c => c)).length : ℚ)) := by
  simp only [aggregate_confidences]
  rw [if_neg h]

/-! ## Claim theorems: evaluator -/

/-- C1: for a successful evaluation, the aggregated `average_confidence`
is absent exactly when every extraction's confidence is absent, and is
otherwise the arithmetic mean of just the present confidences (absent
values are skipped, never treated as 0.0). -/
theorem C1_average_confidence (nf lo : List Char → List Char) (ex : Extractor)
    (samples : List DocumentSample)
    (hok : ∀ s ∈ samples, (ex.run s).isOk = true) :
    ∃ m, (evaluate_method nf lo ex samples).2 = Except.ok m ∧
      (m.average_confidence = none ↔
        ∀ s ∈ samples, confOf (ex.run s) = none) ∧
      ((samples.map fun s => confOf (ex.run s)).filterMap (fun c => c) ≠ [] →
        m.average_confidence = some
          (((samples.map fun s => confOf (ex.run s)).filterMap (fun c => c)).sum /
            ((((samples.map fun s => confOf (ex.run s)).filterMap
                (fun c => c)).length : ℚ)))) := by
  obtain ⟨m, hev, _, _, hconf, _⟩ := evaluate_method_ok nf lo ex samples hok
  refine ⟨m, by rw [hev], ?_, ?_⟩
  · rw [hconf, aggregate_confidences_none_iff]
    simp
  · intro hne
    rw [hconf, aggregate_confidences_mean _ hne]

/-- Witness for C1: two samples, one confidence present (1/2), one
absent; the average is 1/2, not the zero-padded 1/4. -/
theorem C1_average_confidence_witness :
    ∃ m, (evaluate_method id id exOk [sampleA, sampleB]).2 = Except.ok m ∧
      m.average_confidence = some (1/2 : ℚ) := by
  obtain ⟨m, hm, _, hsome⟩ :=
    C1_average_confidence id id exOk [sampleA, sampleB] (by decide)
  refine ⟨m, hm, ?_⟩
  have h2 := hsome (by decide)
  have hA : confOf (exOk.run sampleA) = some ((1 : ℚ)/2) := by rfl
  have hB : confOf (exOk.run sampleB) = none := by rfl
  rw [h2, List.map_cons, List.map_cons, List.map_nil, hA, hB]
  norm_num [List.filterMap_cons, List.filterMap_nil]

/-- C6: when every extraction call succeeds, the report's `dataset_size`
is the input sample count, and every method record holds exactly that
many sample records, in input order. -/
theorem C6_report_shape (nf lo : List Char → List Char)
    (samples : List DocumentSample) (extractors : List Extractor)
    (hok : ∀ ex ∈ extractors, ∀ s ∈ samples, (ex.run s).isOk = true) :
    ∃ report, (runBenchmark nf lo samples extractors).2 = Except.ok report ∧
      report.dataset_size = samples.length ∧
      ∀ p ∈ report.methods,
        p.2.samples.length = samples.length ∧
        p.2.samples.map SampleEvaluation.sample_id =
          samples.map DocumentSample.id := by
  obtain ⟨ms, hrun, hms⟩ := runGo_ok nf lo samples extractors [] hok (by simp)
  refine ⟨{ dataset_size := samples.length, methods := ms }, ?_, rfl, hms⟩
  simp only [runBenchmark, hrun]
  rfl

/-- Witness for C6: two samples, one always-succeeding extractor. -/
theorem C6_report_shape_witness :
    ∃ report, (runBenchmark id id [sampleA, sampleB] [exOk]).2 =
        Except.ok report ∧
      report.dataset_size = [sampleA, sampleB].length ∧
      ∀ p ∈ report.methods,
        p.2.samples.length = [sampleA, sampleB].length ∧
        p.2.samples.map SampleEvaluation.sample_id =
          [sampleA, sampleB].map DocumentSample.id :=
  C6_report_shape id id [sampleA, sampleB] [exOk] (by decide)

/-- C7: a failing `run` call aborts the method evaluation: the result is
the uncaught error (so no record, partial or otherwise, is produced), the
extractor was invoked exactly on the samples up to and including the
failing one, and no later sample is attempted and no retry happens. -/
theorem C7_extraction_failure_fail_fast (nf lo : List Char → List Char)
    (ex : Extractor) (pre post : List DocumentSample)
    (sbad : DocumentSample) (e : String)
    (hpre : ∀ s ∈ pre, (ex.run s).isOk = true)
    (hbad : ex.run sbad = Except.error e) :
    evaluate_method nf lo ex (pre ++ sbad :: post) =
      ((pre ++ [sbad]).map fun s => RunEvent.ranSample ex.name s.id,
        Except.error e) := by
  have h := methodGo_error nf lo ex sbad e hbad pre hpre post ⟨[], [], [], []⟩
  simp only [evaluate_method, h]
  rfl

/-- Witness for C7: second of three samples fails; the trace stops there. -/
theorem C7_extraction_failure_fail_fast_witness :
    evaluate_method id id exMixed ([sampleA] ++ sampleB :: [sampleC]) =
      (([sampleA] ++ [sampleB]).map fun s =>
        RunEvent.ranSample exMixed.name s.id, Except.error "boom") :=
  C7_extraction_failure_fail_fast id id exMixed [sampleA] [sampleC] sampleB
    "boom" (by decide) (by rfl)

/-- Counterexample to C8 as stated: a run whose only extractor fails on
its first sample.  The extractor was processed (its `run` was invoked),
the run aborted with the error, and `cleanup` was never invoked — not
exactly once — because `BenchmarkRunner.run` has no try/finally around
`evaluate_method`. -/
theorem C8_counterexample_no_cleanup_on_failure :
    (runBenchmark id id [sampleA] [exBad]).1 =
      [RunEvent.ranSample "bad" "a"] ∧
    (runBenchmark id id [sampleA] [exBad]).2 = Except.error "boom" ∧
    (runBenchmark id id [sampleA] [exBad]).1.count
      (RunEvent.cleanup "bad") = 0 :=
  ⟨by rfl, by rfl, by rfl⟩

/-- C8 (amended): when every extraction call of every extractor succeeds,
each extractor's `cleanup` is invoked exactly once, after all of that
extractor's samples; if an evaluation fails, the cleanup of that
extractor (and all processing of later ones) is skipped.  The success
case is the trace equality below; the failure case is
`C8_counterexample_no_cleanup_on_failure`. -/
theorem C8_cleanup_once_on_success (nf lo : List Char → List Char)
    (samples : List DocumentSample) (extractors : List Extractor)
    (hok : ∀ ex ∈ extractors, ∀ s ∈ samples, (ex.run s).isOk = true) :
    (runBenchmark nf lo samples extractors).1 =
      extractors.flatMap fun ex =>
        (samples.map fun s => RunEvent.ranSample ex.name s.id) ++
          [RunEvent.cleanup ex.name] := by
  obtain ⟨ms, hrun, _⟩ := runGo_ok nf lo samples extractors [] hok (by simp)
  simp only [runBenchmark, hrun]

/-- Witness for the amended C8. -/
theorem C8_cleanup_once_on_success_witness :
    (runBenchmark id id [sampleA, sampleB] [exOk]).1 =
      [exOk].flatMap fun ex =>
        ([sampleA, sampleB].map fun s => RunEvent.ranSample ex.name s.id) ++
          [RunEvent.cleanup ex.name] :=
  C8_cleanup_once_on_success id id [sampleA, sampleB] [exOk] (by decide)

/-- C9: evaluating a method over an empty sample sequence yields an empty
aggregated-metrics mapping (so none of the six metric keys is present),
an absent average confidence, and `math.nan` as the average latency. -/
theorem C9_empty_dataset (nf lo : List Char → List Char) (ex : Extractor) :
    ∃ m, evaluate_method nf lo ex [] = ([], Except.ok m) ∧
      m.aggregated_metrics = [] ∧
      m.average_confidence = none ∧
      m.average_latency_seconds = PyFloat.nan ∧
      m.samples = [] :=
  ⟨_, rfl, rfl, rfl, rfl, rfl⟩

end OcrBenchmark
